import Mathlib

/-!
Verification of the pooled diagnostic-accuracy estimator of the
mito_biomarker_review repository.

The statistical core lives in `scripts/automated_meta_analysis.py`
(class `AutomatedMetaAnalysis`: `calculate_weights`,
`calculate_standard_error`, `calculate_confidence_interval`,
`calculate_heterogeneity`, `calculate_diagnostic_odds_ratio`,
`calculate_pooled_estimates`, and the 2-study guard in
`perform_meta_analysis_by_biomarker`), with a parallel per-study
diagnostic-odds-ratio computation in
`scripts/real_data_meta_analysis.py` (`calculate_study_metrics`).

Numeric model: the Python code computes with floats; we embed the exact
arithmetic over ℚ.  The two genuinely irrational operations — the normal
quantile `stats.norm.ppf((1+confidence)/2)` and `np.sqrt` — are handled
by (a) passing the z-score as an explicit parameter (the code computes
it once and uses it only as a number), and (b) taking the square root
in ℝ.  Everything up to the square root stays computable in ℚ.
-/

namespace MetaAnalysis

/-- One study's row as the pooling code reads it: a point estimate
(`sensitivity_mean` / `specificity_mean` column) plus the patient and
control counts used for weighting.  A `none` count models a missing
(NaN) cell in the CSV: in the Python source any NaN propagates through
`n_patients + n_controls` and fails the `> 0` test, so the study falls
back to the default weight. -/
structure Measurement where
  estimate : ℚ
  nPatients : Option ℚ
  nControls : Option ℚ

/-- The effective sample size `n_total = n_patients + n_controls` of
`calculate_weights`; `none` when either count is missing (NaN
propagation makes the whole sum non-comparable in the source). -/
def effectiveSampleSize (m : Measurement) : Option ℚ :=
  match m.nPatients, m.nControls with
  | some p, some c => some (p + c)
  | _, _ => none

/-- Weight of a single study: `n_total` if `n_total > 0`, else the
default weight `1` (`calculate_weights`, automated_meta_analysis.py
lines 136-141). -/
def weightOf (m : Measurement) : ℚ :=
  match effectiveSampleSize m with
  | some n => if 0 < n then n else 1
  | none => 1

/-- `calculate_weights`: one weight per row, in row order. -/
def calculate_weights (ms : List Measurement) : List ℚ :=
  ms.map weightOf

/-- Sum of pairwise products, the Σ vᵢ·wᵢ underlying `np.average` and
`np.sum(weights * (...)**2)`.  Trailing elements of the longer list are
ignored; all call sites use equal-length lists. -/
def dot : List ℚ → List ℚ → ℚ
  | [], _ => 0
  | _ :: _, [] => 0
  | v :: vs, w :: ws => v * w + dot vs ws

/-- `np.average(values, weights=weights) = Σ vᵢwᵢ / Σ wᵢ`. -/
def average (vals ws : List ℚ) : ℚ :=
  dot vals ws / ws.sum

/-- `np.average((values - mean)**2, weights=weights)`, the weighted
variance used by `calculate_standard_error`. -/
def weightedVariance (vals ws : List ℚ) : ℚ :=
  average (vals.map fun v => (v - average vals ws) ^ 2) ws

/-- The Cochran dispersion statistic
`Q = np.sum(weights * (values - weighted_mean)**2)` of
`calculate_heterogeneity`. -/
def qStatistic (vals ws : List ℚ) : ℚ :=
  dot (vals.map fun v => (v - average vals ws) ^ 2) ws

/-- `calculate_standard_error`: `0` for fewer than two values, else
`sqrt(weighted_var / len(values))`.  The square root is taken in ℝ. -/
noncomputable def calculate_standard_error (vals ws : List ℚ) : ℝ :=
  if vals.length < 2 then 0
  else Real.sqrt ((weightedVariance vals ws / (vals.length : ℚ) : ℚ) : ℝ)

/-- `calculate_confidence_interval`: `(max(0, e - z*se), min(100, e + z*se))`
where `z = stats.norm.ppf((1 + confidence) / 2)` is passed in as a
parameter.  Stated over any linear ordered field so that the same
definition serves the exact ℚ development and the ℝ-valued `pool`. -/
def calculate_confidence_interval {α : Type} [LinearOrderedField α]
    (z estimate se : α) : α × α :=
  (max 0 (estimate - z * se), min 100 (estimate + z * se))

/-- `calculate_heterogeneity`: the I² statistic,
`0` when `q_stat <= df` (with `df = len(values) - 1`), else
`min(100, max(0, (q - df)/q * 100))`. -/
def calculate_heterogeneity (vals ws : List ℚ) : ℚ :=
  if vals.length < 2 then 0
  else if qStatistic vals ws ≤ (vals.length : ℚ) - 1 then 0
  else min 100 (max 0 ((qStatistic vals ws - ((vals.length : ℚ) - 1)) /
    qStatistic vals ws * 100))

/-- `calculate_diagnostic_odds_ratio` (percentage scale): `None` at a
boundary value, else `(sens/(1-sens)) / ((1-spec)/spec)` after dividing
the percentages by 100. -/
def calculate_diagnostic_odds_ratio (sensitivity specificity : ℚ) : Option ℚ :=
  if sensitivity = 0 ∨ sensitivity = 100 ∨ specificity = 0 ∨ specificity = 100 then
    none
  else
    some ((sensitivity / 100 / (1 - sensitivity / 100)) /
      ((1 - specificity / 100) / (specificity / 100)))

/-- The per-study diagnostic odds ratio of `calculate_study_metrics`
(real_data_meta_analysis.py line 264):
`(tp * tn) / (fp * fn) if fp > 0 and fn > 0 else float('inf')`.
`none` models the `float('inf')` sentinel. -/
def study_dor (tp fp fn tn : ℕ) : Option ℚ :=
  if 0 < fp ∧ 0 < fn then
    some (((tp * tn : ℕ) : ℚ) / ((fp * fn : ℕ) : ℚ))
  else
    none

/-- The only recoverable failure of the pooling core: fewer than two
studies (`if len(valid_data) < 2: continue` /
`if len(biomarker_studies) < 2: return None`). -/
inductive MetaError where
  | insufficientData

/-- Output of one pooling operation for one metric of one biomarker. -/
structure PooledResult where
  nStudies : ℕ
  pooledEstimate : ℚ
  standardError : ℝ
  ciLower : ℝ
  ciUpper : ℝ
  heterogeneityI2 : ℚ

/-- The pooling pipeline of `calculate_pooled_estimates` for a single
metric, guarded by the 2-study minimum of
`perform_meta_analysis_by_biomarker`: weights, weighted mean, standard
error, confidence interval, heterogeneity. -/
noncomputable def pool (z : ℚ) (ms : List Measurement) : Except MetaError PooledResult :=
  if ms.length < 2 then Except.error MetaError.insufficientData
  else
    let vals := ms.map Measurement.estimate
    let ws := calculate_weights ms
    let est := average vals ws
    let se := calculate_standard_error vals ws
    let ci := calculate_confidence_interval (z : ℝ) ((est : ℚ) : ℝ) se
    Except.ok ⟨ms.length, est, se, ci.1, ci.2, calculate_heterogeneity vals ws⟩

/-- The spec's pooling formula, written from its words
`pooledEstimate ← Σ(estimate·weight) / Σ(weight)` (spec §4.1 step 2)
independently of the `dot` recursion used by the embedding of
`np.average`, for refinement comparison. -/
def specWeightedMean (vals ws : List ℚ) : ℚ :=
  (List.zipWith (fun a b => a * b) vals ws).sum / ws.sum

/-- The spec's weight rule, written from its words: the weight is the
effective sample size when that is a positive number, else the fallback
constant 1 (spec §4.1 `computeWeights`). -/
def weightSpec (m : Measurement) : ℚ :=
  if 0 < (effectiveSampleSize m).getD 0 then (effectiveSampleSize m).getD 0 else 1

/-! Helper lemmas about `dot`, sums and weights, shared by the claim
theorems below. -/

theorem dot_nil_right : ∀ vs : List ℚ, dot vs [] = 0
  | [] => rfl
  | _ :: _ => rfl

theorem dot_const (v : ℚ) : ∀ (vals ws : List ℚ), (∀ x ∈ vals, x = v) →
    vals.length = ws.length → dot vals ws = v * ws.sum
  | [], [], _, _ => by simp [dot]
  | [], _ :: _, _, hlen => by simp at hlen
  | _ :: _, [], _, hlen => by simp at hlen
  | a :: vals, w :: ws, hall, hlen => by
    have ha : a = v := hall a (List.mem_cons_self a vals)
    have ih := dot_const v vals ws (fun x hx => hall x (List.mem_cons_of_mem a hx))
      (by simpa using hlen)
    simp only [dot, ih, ha, List.sum_cons]
    ring

theorem dot_le_mul_sum (hi : ℚ) : ∀ (vals ws : List ℚ), vals.length = ws.length →
    (∀ x ∈ vals, x ≤ hi) → (∀ w ∈ ws, 0 ≤ w) → dot vals ws ≤ hi * ws.sum
  | [], [], _, _, _ => by simp [dot]
  | [], _ :: _, hlen, _, _ => by simp at hlen
  | _ :: _, [], hlen, _, _ => by simp at hlen
  | a :: vals, w :: ws, hlen, hall, hpos => by
    have ha : a ≤ hi := hall a (List.mem_cons_self a vals)
    have hw : 0 ≤ w := hpos w (List.mem_cons_self w ws)
    have ih := dot_le_mul_sum hi vals ws (by simpa using hlen)
      (fun x hx => hall x (List.mem_cons_of_mem a hx))
      (fun x hx => hpos x (List.mem_cons_of_mem w hx))
    have hstep : a * w ≤ hi * w := mul_le_mul_of_nonneg_right ha hw
    simp only [dot, List.sum_cons]
    calc a * w + dot vals ws ≤ hi * w + hi * ws.sum := add_le_add hstep ih
      _ = hi * (w + ws.sum) := by ring

theorem mul_sum_le_dot (lo : ℚ) : ∀ (vals ws : List ℚ), vals.length = ws.length →
    (∀ x ∈ vals, lo ≤ x) → (∀ w ∈ ws, 0 ≤ w) → lo * ws.sum ≤ dot vals ws
  | [], [], _, _, _ => by simp [dot]
  | [], _ :: _, hlen, _, _ => by simp at hlen
  | _ :: _, [], hlen, _, _ => by simp at hlen
  | a :: vals, w :: ws, hlen, hall, hpos => by
    have ha : lo ≤ a := hall a (List.mem_cons_self a vals)
    have hw : 0 ≤ w := hpos w (List.mem_cons_self w ws)
    have ih := mul_sum_le_dot lo vals ws (by simpa using hlen)
      (fun x hx => hall x (List.mem_cons_of_mem a hx))
      (fun x hx => hpos x (List.mem_cons_of_mem w hx))
    have hstep : lo * w ≤ a * w := mul_le_mul_of_nonneg_right ha hw
    simp only [dot, List.sum_cons]
    calc lo * (w + ws.sum) = lo * w + lo * ws.sum := by ring
      _ ≤ a * w + dot vals ws := add_le_add hstep ih

theorem dot_append : ∀ (a c : List ℚ), a.length = c.length →
    ∀ b d : List ℚ, dot (a ++ b) (c ++ d) = dot a c + dot b d
  | [], [], _, b, d => by simp [dot]
  | [], _ :: _, hlen, _, _ => by simp at hlen
  | _ :: _, [], hlen, _, _ => by simp at hlen
  | x :: a, y :: c, hlen, b, d => by
    have ih := dot_append a c (by simpa using hlen) b d
    simp only [List.cons_append, dot, List.append_eq, ih]
    ring

theorem weightOf_eq_weightSpec (m : Measurement) : weightOf m = weightSpec m := by
  unfold weightOf weightSpec
  cases h : effectiveSampleSize m <;> simp [h]

theorem weightOf_pos (m : Measurement) : 0 < weightOf m := by
  unfold weightOf
  cases h : effectiveSampleSize m with
  | none => norm_num
  | some n =>
    simp only
    split
    · assumption
    · norm_num

theorem weights_sum_pos (ms : List Measurement) (h : ms ≠ []) :
    0 < (calculate_weights ms).sum := by
  apply List.sum_pos
  · intro w hw
    simp only [calculate_weights, List.mem_map] at hw
    obtain ⟨m, _, rfl⟩ := hw
    exact weightOf_pos m
  · simpa [calculate_weights] using h

/-! The claim theorems. -/

/-- C1: for every measurement list with fewer than 2 studies, `pool`
signals `insufficientData` (the biomarker/metric is skipped rather than
pooled); for lists of 2 or more it computes a `PooledResult`. -/
theorem pool_requires_two_studies (z : ℚ) (ms : List Measurement) :
    (ms.length < 2 → pool z ms = Except.error MetaError.insufficientData) ∧
    (2 ≤ ms.length → ∃ r, pool z ms = Except.ok r ∧ r.nStudies = ms.length) := by
  constructor
  · intro h
    simp only [pool]
    rw [if_pos h]
  · intro h
    simp only [pool]
    rw [if_neg (Nat.not_lt.mpr h)]
    exact ⟨_, rfl, rfl⟩

/-- Witness for C1 at one- and two-study inputs. -/
theorem pool_requires_two_studies_app :
    pool 2 [(⟨1/2, some 10, some 20⟩ : Measurement)] =
      Except.error MetaError.insufficientData ∧
    (pool 2 [(⟨1/2, some 10, some 20⟩ : Measurement), ⟨3/5, some 5, some 5⟩]).toOption.map
      PooledResult.nStudies = some 2 := by
  constructor
  · exact (pool_requires_two_studies 2 _).1 (by decide)
  · obtain ⟨r, hok, hn⟩ := (pool_requires_two_studies 2
      [(⟨1/2, some 10, some 20⟩ : Measurement), ⟨3/5, some 5, some 5⟩]).2 (by decide)
    rw [hok]
    show some r.nStudies = some 2
    rw [hn]
    rfl

/-- C4: for size ≥ 2, I² is 0 when Q ≤ n−1 and
`((Q−(n−1))/Q)·100` clipped to [0,100] otherwise; the returned I² is
always in [0,100]. -/
theorem heterogeneity_formula_range (vals ws : List ℚ) (h2 : 2 ≤ vals.length) :
    (calculate_heterogeneity vals ws =
      if qStatistic vals ws ≤ (vals.length : ℚ) - 1 then 0
      else min 100 (max 0 ((qStatistic vals ws - ((vals.length : ℚ) - 1)) /
        qStatistic vals ws * 100))) ∧
    0 ≤ calculate_heterogeneity vals ws ∧ calculate_heterogeneity vals ws ≤ 100 := by
  have hnl : ¬ vals.length < 2 := Nat.not_lt.mpr h2
  unfold calculate_heterogeneity
  rw [if_neg hnl]
  refine ⟨rfl, ?_, ?_⟩
  · split
    · exact le_rfl
    · exact le_min (by norm_num) (le_max_left _ _)
  · split
    · norm_num
    · exact min_le_left _ _

/-- Witness for C4 at a two-study input with high dispersion. -/
theorem heterogeneity_formula_range_app :
    (0 : ℚ) ≤ calculate_heterogeneity [10, 90] [10, 10] ∧
    calculate_heterogeneity [10, 90] [10, 10] ≤ 100 := by
  obtain ⟨-, ha, hb⟩ := heterogeneity_formula_range [10, 90] [10, 10] (by decide)
  exact ⟨ha, hb⟩

/-- C5: the confidence interval equals the z-margin interval clipped to
[0, 100]; both bounds lie within [0, 100] and bracket the pooled
estimate, strictly so when the margin is positive and the estimate is
interior. -/
theorem confidence_interval_clip_bracket (z est se : ℚ) (hz : 0 ≤ z) (hse : 0 ≤ se)
    (h0 : 0 ≤ est) (h100 : est ≤ 100) :
    calculate_confidence_interval z est se =
      (max 0 (est - z * se), min 100 (est + z * se)) ∧
    0 ≤ ( calculate_confidence_interval z est se).1 ∧
    ( calculate_confidence_interval z est se).1 ≤ est ∧
    est ≤ ( calculate_confidence_interval z est se).2 ∧
    ( calculate_confidence_interval z est se).2 ≤ 100 ∧
    (0 < z * se → 0 < est → est < 100 →
      ( calculate_confidence_interval z est se).1 < est ∧
      est < ( calculate_confidence_interval z est se).2) := by
  have hzs : 0 ≤ z * se := mul_nonneg hz hse
  unfold calculate_confidence_interval
  refine ⟨rfl, le_max_left 0 _, ?_, ?_, min_le_left _ _, ?_⟩
  · exact max_le h0 (by linarith)
  · exact le_min h100 (by linarith)
  · intro h1 h2 h3
    exact ⟨max_lt h2 (by linarith), lt_min h3 (by linarith)⟩

/-- Witness for C5 at z = 2, estimate 50, standard error 1. -/
theorem confidence_interval_clip_bracket_app :
    0 ≤ ( calculate_confidence_interval (2 : ℚ) 50 1).1 ∧
    ( calculate_confidence_interval (2 : ℚ) 50 1).1 < 50 ∧
    (50 : ℚ) < ( calculate_confidence_interval (2 : ℚ) 50 1).2 ∧
    ( calculate_confidence_interval (2 : ℚ) 50 1).2 ≤ 100 := by
  have h := confidence_interval_clip_bracket 2 50 1
    (by decide) (by decide) (by decide) (by decide)
  have hs := h.2.2.2.2.2 (by norm_num) (by decide) (by decide)
  exact ⟨h.2.1, hs.1, hs.2, h.2.2.2.2.1⟩

/-- C6: `calculate_weights` returns one weight per measurement in the
same order, each equal to the effective sample size when that is a
positive number and to the fallback constant 1 otherwise; every weight
is strictly positive. -/
theorem weights_positive_ordered (ms : List Measurement) :
    (calculate_weights ms).length = ms.length ∧
    calculate_weights ms = ms.map weightSpec ∧
    ∀ w ∈ calculate_weights ms, 0 < w := by
  refine ⟨by simp [calculate_weights], ?_, ?_⟩
  · unfold calculate_weights
    rw [show weightOf = weightSpec from funext weightOf_eq_weightSpec]
  · intro w hw
    simp only [calculate_weights, List.mem_map] at hw
    obtain ⟨m, _, rfl⟩ := hw
    exact weightOf_pos m

/-- Witness for C6 on a list with missing sample sizes. -/
theorem weights_positive_ordered_app :
    (calculate_weights [(⟨50, none, none⟩ : Measurement), ⟨75, none, some 5⟩]).length
      = 2 ∧
    calculate_weights [(⟨50, none, none⟩ : Measurement), ⟨75, none, some 5⟩] =
      [(⟨50, none, none⟩ : Measurement), ⟨75, none, some 5⟩].map weightSpec ∧
    (0 : ℚ) <
      (calculate_weights [(⟨50, none, none⟩ : Measurement), ⟨75, none, some 5⟩]).getD
        1 0 := by
  obtain ⟨h1, h2, h3⟩ :=
    weights_positive_ordered [(⟨50, none, none⟩ : Measurement), ⟨75, none, some 5⟩]
  exact ⟨h1, h2, h3 _ (by decide)⟩

/-- C7: the diagnostic odds ratio returns `none` exactly at a boundary
percentage (0 or 100), and for strictly interior inputs returns
`(sens/(1−sens)) / ((1−spec)/spec)` on the proportion scale, with both
denominators nonzero. -/
theorem dor_boundary_iff (s p : ℚ) :
    ( calculate_diagnostic_odds_ratio s p = none ↔
      s = 0 ∨ s = 100 ∨ p = 0 ∨ p = 100) ∧
    (0 < s → s < 100 → 0 < p → p < 100 →
      calculate_diagnostic_odds_ratio s p =
        some ((s / 100 / (1 - s / 100)) / ((1 - p / 100) / (p / 100))) ∧
      1 - s / 100 ≠ 0 ∧ (1 - p / 100) / (p / 100) ≠ 0) := by
  constructor
  · by_cases h : s = 0 ∨ s = 100 ∨ p = 0 ∨ p = 100
    · unfold calculate_diagnostic_odds_ratio
      rw [if_pos h]
      simp [h]
    · unfold calculate_diagnostic_odds_ratio
      rw [if_neg h]
      simp [h]
  · intro hs0 hs1 hp0 hp1
    have hg : ¬ (s = 0 ∨ s = 100 ∨ p = 0 ∨ p = 100) := by
      push_neg
      exact ⟨ne_of_gt hs0, ne_of_lt hs1, ne_of_gt hp0, ne_of_lt hp1⟩
    have hsd : 1 - s / 100 ≠ 0 := by
      have : s / 100 < 1 := (div_lt_one (by norm_num)).mpr hs1
      intro hc
      linarith
    have hpn : 1 - p / 100 ≠ 0 := by
      have : p / 100 < 1 := (div_lt_one (by norm_num)).mpr hp1
      intro hc
      linarith
    have hpz : p / 100 ≠ 0 := div_ne_zero (ne_of_gt hp0) (by norm_num)
    refine ⟨?_, hsd, div_ne_zero hpn hpz⟩
    unfold calculate_diagnostic_odds_ratio
    rw [if_neg hg]

/-- Witness for C7 at a boundary and at an interior input. -/
theorem dor_boundary_iff_app :
    calculate_diagnostic_odds_ratio 100 50 = none ∧
    calculate_diagnostic_odds_ratio 70 80 =
      some (((70 : ℚ) / 100 / (1 - 70 / 100)) / ((1 - 80 / 100) / (80 / 100))) := by
  constructor
  · exact (dor_boundary_iff 100 50).1.mpr (by decide)
  · exact ((dor_boundary_iff 70 80).2 (by decide) (by decide) (by decide) (by decide)).1

/-- C8: the per-study 2×2-table odds ratio equals `(tp·tn)/(fp·fn)`
when `fp·fn ≠ 0` and is the undefined/infinite sentinel exactly when
`fp·fn = 0`; in particular `study_dor 56 10 14 60 = 24`. -/
theorem study_dor_formula (tp fp fn tn : ℕ) :
    (study_dor tp fp fn tn = none ↔ fp * fn = 0) ∧
    (fp * fn ≠ 0 →
      study_dor tp fp fn tn = some (((tp * tn : ℕ) : ℚ) / ((fp * fn : ℕ) : ℚ))) ∧
    study_dor 56 10 14 60 = some 24 := by
  have hiff : (0 < fp ∧ 0 < fn) ↔ ¬ fp * fn = 0 := by
    rw [Nat.mul_eq_zero]
    omega
  refine ⟨?_, ?_, by norm_num [study_dor]⟩
  · by_cases h : 0 < fp ∧ 0 < fn
    · simp only [study_dor]
      rw [if_pos h]
      simp [hiff.mp h]
    · simp only [study_dor]
      rw [if_neg h]
      simpa using not_not.mp (fun hc => h (hiff.mpr hc))
  · intro hne
    simp only [study_dor]
    rw [if_pos (hiff.mpr hne)]

/-- Witness for C8 at a defined and an undefined table. -/
theorem study_dor_formula_app :
    study_dor 2 3 5 7 = some (((2 * 7 : ℕ) : ℚ) / ((3 * 5 : ℕ) : ℚ)) ∧
    study_dor 2 0 5 7 = none := by
  constructor
  · exact (study_dor_formula 2 3 5 7).2.1 (by decide)
  · exact (study_dor_formula 2 0 5 7).1.mpr (by decide)

/-! Further helpers: unfolding `pool` past its guard, and the
`dot`/`zipWith` bridge. -/

theorem pool_ok (z : ℚ) (ms : List Measurement) (h : ¬ ms.length < 2) :
    pool z ms = Except.ok
      ⟨ms.length, average (ms.map Measurement.estimate) (calculate_weights ms),
        calculate_standard_error (ms.map Measurement.estimate) (calculate_weights ms),
        ( calculate_confidence_interval (z : ℝ)
          ((average (ms.map Measurement.estimate) (calculate_weights ms) : ℚ) : ℝ)
          (calculate_standard_error (ms.map Measurement.estimate)
            (calculate_weights ms))).1,
        ( calculate_confidence_interval (z : ℝ)
          ((average (ms.map Measurement.estimate) (calculate_weights ms) : ℚ) : ℝ)
          (calculate_standard_error (ms.map Measurement.estimate)
            (calculate_weights ms))).2,
        calculate_heterogeneity (ms.map Measurement.estimate) (calculate_weights ms)⟩ := by
  simp only [pool]
  rw [if_neg h]

theorem dot_eq_zipWith_sum : ∀ vals ws : List ℚ,
    dot vals ws = (List.zipWith (fun a b => a * b) vals ws).sum
  | [], [] => rfl
  | [], _ :: _ => rfl
  | _ :: _, [] => rfl
  | v :: vs, w :: ws => by
    simp only [dot, List.zipWith_cons_cons, List.sum_cons, dot_eq_zipWith_sum vs ws]

theorem average_eq_specWeightedMean (vals ws : List ℚ) :
    average vals ws = specWeightedMean vals ws := by
  unfold average specWeightedMean
  rw [dot_eq_zipWith_sum]

/-- C2 counterexample: at the spec's concrete scenario
(estimates 0.80, 0.74, 0.71 with weights 140, 196, 102) the weighted
mean is 5491/7300 ≈ 0.752, which misses the claimed 0.754 by more than
0.001: the approximation "≈ 0.754" fails even at that loose tolerance,
and the distance to 0.752 is smaller than the distance to 0.754. -/
theorem pooled_concrete_not_0754 :
    average [4/5, 37/50, 71/100] [140, 196, 102] = 5491/7300 ∧
    1/1000 < |average [4/5, 37/50, 71/100] [140, 196, 102] - 754/1000| ∧
    |average [4/5, 37/50, 71/100] [140, 196, 102] - 752/1000| <
      |average [4/5, 37/50, 71/100] [140, 196, 102] - 754/1000| := by
  have hval : average [4/5, 37/50, 71/100] [140, 196, 102] = 5491/7300 := by
    norm_num [average, dot]
  rw [hval]
  refine ⟨rfl, ?_, ?_⟩
  · rw [abs_sub_comm, abs_of_pos (by norm_num)]
    norm_num
  · rw [abs_of_pos (by norm_num), abs_sub_comm, abs_of_pos (by norm_num)]
    norm_num

/-- C2 (amended): for every list of at least 2 measurements, `pool`
returns pooledEstimate equal to the weighted mean
Σ(estimate·weight)/Σ(weight); for estimates 0.80, 0.74, 0.71 with
weights 140, 196, 102 the pooled estimate is 5491/7300 ≈ 0.752 (not
0.754). -/
theorem pooled_is_weighted_mean (z : ℚ) (ms : List Measurement) (h2 : 2 ≤ ms.length) :
    (∃ r, pool z ms = Except.ok r ∧
      r.pooledEstimate =
        specWeightedMean (ms.map Measurement.estimate) (calculate_weights ms)) ∧
    specWeightedMean [4/5, 37/50, 71/100] [140, 196, 102] = 5491/7300 ∧
    |specWeightedMean [4/5, 37/50, 71/100] [140, 196, 102] - 752/1000| < 1/1000 := by
  have hconc : specWeightedMean [4/5, 37/50, 71/100] [140, 196, 102] = 5491/7300 := by
    rw [← average_eq_specWeightedMean]
    norm_num [average, dot]
  refine ⟨?_, hconc, ?_⟩
  · rw [pool_ok z ms (Nat.not_lt.mpr h2)]
    exact ⟨_, rfl, average_eq_specWeightedMean _ _⟩
  · rw [hconc]
    rw [abs_lt]
    constructor <;> norm_num

/-- Witness for C2 (amended) at the spec's concrete scenario. -/
theorem pooled_is_weighted_mean_app :
    (pool 2 [(⟨4/5, some 140, some 0⟩ : Measurement), ⟨37/50, some 196, some 0⟩,
        ⟨71/100, some 100, some 2⟩]).toOption.map PooledResult.pooledEstimate =
      some (specWeightedMean
        ([(⟨4/5, some 140, some 0⟩ : Measurement), ⟨37/50, some 196, some 0⟩,
          ⟨71/100, some 100, some 2⟩].map Measurement.estimate)
        (calculate_weights [(⟨4/5, some 140, some 0⟩ : Measurement),
          ⟨37/50, some 196, some 0⟩, ⟨71/100, some 100, some 2⟩])) := by
  obtain ⟨⟨r, hok, hp⟩, -, -⟩ := pooled_is_weighted_mean 2
    [(⟨4/5, some 140, some 0⟩ : Measurement), ⟨37/50, some 196, some 0⟩,
      ⟨71/100, some 100, some 2⟩] (by decide)
  rw [hok]
  show some r.pooledEstimate = _
  rw [hp]

/-- C3: when all point estimates equal one value v (within the valid
percentage scale), `pool` returns pooledEstimate = v, standardError = 0,
heterogeneityI2 = 0, and the confidence interval collapses to (v, v). -/
theorem pool_constant_estimates (z v : ℚ) (ms : List Measurement)
    (h2 : 2 ≤ ms.length) (hall : ∀ m ∈ ms, m.estimate = v)
    (hv0 : 0 ≤ v) (hv100 : v ≤ 100) :
    ∃ r, pool z ms = Except.ok r ∧ r.pooledEstimate = v ∧
      r.standardError = 0 ∧ r.heterogeneityI2 = 0 ∧
      r.ciLower = ((v : ℚ) : ℝ) ∧ r.ciUpper = ((v : ℚ) : ℝ) := by
  have hnl : ¬ ms.length < 2 := Nat.not_lt.mpr h2
  have hnl2 : ¬ (ms.map Measurement.estimate).length < 2 := by
    simpa using hnl
  have hlen : (ms.map Measurement.estimate).length = (calculate_weights ms).length := by
    simp [calculate_weights]
  have hvv : ∀ x ∈ ms.map Measurement.estimate, x = v := by
    intro x hx
    obtain ⟨m, hm, rfl⟩ := List.mem_map.mp hx
    exact hall m hm
  have hne : ms ≠ [] := by
    intro hc
    rw [hc] at h2
    simp at h2
  have hS : 0 < (calculate_weights ms).sum := weights_sum_pos ms hne
  have havg : average (ms.map Measurement.estimate) (calculate_weights ms) = v := by
    unfold average
    rw [dot_const v _ _ hvv hlen]
    exact mul_div_cancel_right₀ v (ne_of_gt hS)
  have hdevs : ∀ y ∈ (ms.map Measurement.estimate).map
      (fun x => (x - average (ms.map Measurement.estimate) (calculate_weights ms)) ^ 2),
      y = 0 := by
    intro y hy
    obtain ⟨x, hx, rfl⟩ := List.mem_map.mp hy
    rw [havg, hvv x hx]
    ring
  have hdot0 : dot ((ms.map Measurement.estimate).map
      (fun x => (x - average (ms.map Measurement.estimate) (calculate_weights ms)) ^ 2))
      (calculate_weights ms) = 0 := by
    rw [dot_const 0 _ _ hdevs (by simpa using hlen)]
    ring
  have hvar : weightedVariance (ms.map Measurement.estimate) (calculate_weights ms) = 0 := by
    unfold weightedVariance
    show dot ((ms.map Measurement.estimate).map
        (fun x => (x - average (ms.map Measurement.estimate) (calculate_weights ms)) ^ 2))
        (calculate_weights ms) / (calculate_weights ms).sum = 0
    rw [hdot0]
    exact zero_div _
  have hq : qStatistic (ms.map Measurement.estimate) (calculate_weights ms) = 0 := hdot0
  have hse : calculate_standard_error (ms.map Measurement.estimate)
      (calculate_weights ms) = 0 := by
    unfold calculate_standard_error
    rw [if_neg hnl2, hvar]
    norm_num
  have hhet : calculate_heterogeneity (ms.map Measurement.estimate)
      (calculate_weights ms) = 0 := by
    unfold calculate_heterogeneity
    rw [if_neg hnl2, if_pos]
    rw [hq]
    have hlen2 : (2 : ℚ) ≤ ((ms.map Measurement.estimate).length : ℚ) := by
      have : 2 ≤ (ms.map Measurement.estimate).length := by simpa using h2
      exact_mod_cast this
    linarith
  have hci : calculate_confidence_interval (z : ℝ)
      ((average (ms.map Measurement.estimate) (calculate_weights ms) : ℚ) : ℝ)
      (calculate_standard_error (ms.map Measurement.estimate) (calculate_weights ms)) =
      (((v : ℚ) : ℝ), ((v : ℚ) : ℝ)) := by
    rw [havg, hse]
    unfold calculate_confidence_interval
    rw [mul_zero, sub_zero, add_zero]
    have hv0R : (0 : ℝ) ≤ ((v : ℚ) : ℝ) := by exact_mod_cast hv0
    have hv100R : ((v : ℚ) : ℝ) ≤ 100 := by exact_mod_cast hv100
    rw [max_eq_right hv0R, min_eq_right hv100R]
  rw [pool_ok z ms hnl]
  refine ⟨_, rfl, havg, hse, hhet, ?_, ?_⟩
  · show ( calculate_confidence_interval (z : ℝ)
      ((average (ms.map Measurement.estimate) (calculate_weights ms) : ℚ) : ℝ)
      (calculate_standard_error (ms.map Measurement.estimate)
        (calculate_weights ms))).1 = ((v : ℚ) : ℝ)
    rw [hci]
  · show ( calculate_confidence_interval (z : ℝ)
      ((average (ms.map Measurement.estimate) (calculate_weights ms) : ℚ) : ℝ)
      (calculate_standard_error (ms.map Measurement.estimate)
        (calculate_weights ms))).2 = ((v : ℚ) : ℝ)
    rw [hci]

/-- Witness for C3 at two studies with identical estimate 50. -/
theorem pool_constant_estimates_app :
    (pool 2 [(⟨50, some 10, some 20⟩ : Measurement), ⟨50, some 5, some 5⟩]).toOption.map
      (fun r => (r.pooledEstimate, r.heterogeneityI2)) = some (50, 0) ∧
    (pool 2 [(⟨50, some 10, some 20⟩ : Measurement), ⟨50, some 5, some 5⟩]).toOption.map
      PooledResult.standardError = some 0 ∧
    (pool 2 [(⟨50, some 10, some 20⟩ : Measurement), ⟨50, some 5, some 5⟩]).toOption.map
      (fun r => (r.ciLower, r.ciUpper)) = some (((50 : ℚ) : ℝ), ((50 : ℚ) : ℝ)) := by
  obtain ⟨r, hok, h1, h2, h3, h4, h5⟩ := pool_constant_estimates 2 50
    [(⟨50, some 10, some 20⟩ : Measurement), ⟨50, some 5, some 5⟩]
    (by decide) (by decide) (by decide) (by decide)
  rw [hok]
  refine ⟨?_, ?_, ?_⟩
  · show some (r.pooledEstimate, r.heterogeneityI2) = _
    rw [h1, h3]
  · show some r.standardError = _
    rw [h2]
  · show some (r.ciLower, r.ciUpper) = _
    rw [h4, h5]

/-! Helpers for the monotonicity and betweenness claims. -/

theorem foldr_min_le : ∀ (vs : List ℚ) (v : ℚ), ∀ x ∈ v :: vs, vs.foldr min v ≤ x
  | [], v => by
    intro x hx
    simp only [List.mem_singleton] at hx
    simp [hx]
  | a :: t, v => by
    intro x hx
    have ih := foldr_min_le t v
    simp only [List.foldr_cons]
    rcases List.mem_cons.mp hx with h | h
    · exact le_trans (min_le_right _ _) (ih x (by simp [h]))
    · rcases List.mem_cons.mp h with h2 | h2
      · rw [h2]
        exact min_le_left _ _
      · exact le_trans (min_le_right _ _) (ih x (by simp [h2]))

theorem le_foldr_max : ∀ (vs : List ℚ) (v : ℚ), ∀ x ∈ v :: vs, x ≤ vs.foldr max v
  | [], v => by
    intro x hx
    simp only [List.mem_singleton] at hx
    simp [hx]
  | a :: t, v => by
    intro x hx
    have ih := le_foldr_max t v
    simp only [List.foldr_cons]
    rcases List.mem_cons.mp hx with h | h
    · exact le_trans (ih x (by simp [h])) (le_max_right _ _)
    · rcases List.mem_cons.mp h with h2 | h2
      · rw [h2]
        exact le_max_left _ _
      · exact le_trans (ih x (by simp [h2])) (le_max_right _ _)

/-- Decomposition of the weighted mean at a distinguished position:
with A the off-position dot product and W0 the off-position weight sum,
the mean is (A + vj·wj) / (W0 + wj), and its deviation from vj is
(A − vj·W0) / (W0 + wj). -/
theorem average_split (preV postV preW postW : List ℚ) (vj wj : ℚ)
    (hlen : preV.length = preW.length) (hW : 0 < preW.sum + postW.sum + wj) :
    average (preV ++ vj :: postV) (preW ++ wj :: postW) - vj =
      (dot preV preW + dot postV postW - vj * (preW.sum + postW.sum)) /
        (preW.sum + postW.sum + wj) := by
  unfold average
  rw [dot_append preV preW hlen (vj :: postV) (wj :: postW)]
  simp only [dot, List.sum_append, List.sum_cons]
  have hD : preW.sum + (wj + postW.sum) = preW.sum + postW.sum + wj := by ring
  rw [hD, eq_div_iff (ne_of_gt hW), sub_mul, div_mul_cancel₀ _ (ne_of_gt hW)]
  ring

/-- C9: strictly increasing one study's weight while all other weights
and all estimates stay fixed moves the pooled estimate strictly toward
that study's estimate (strictly smaller distance, same side, no
overshoot), unless the pooled estimate already equals it. -/
theorem weight_monotone_toward (preV postV preW postW : List ℚ) (vj wj wj2 : ℚ)
    (hlen : preV.length = preW.length)
    (hpre : ∀ w ∈ preW, 0 < w) (hpost : ∀ w ∈ postW, 0 < w)
    (hwj : 0 < wj) (hinc : wj < wj2)
    (hne : average (preV ++ vj :: postV) (preW ++ wj :: postW) ≠ vj) :
    |average (preV ++ vj :: postV) (preW ++ wj2 :: postW) - vj| <
      |average (preV ++ vj :: postV) (preW ++ wj :: postW) - vj| ∧
    (average (preV ++ vj :: postV) (preW ++ wj :: postW) < vj →
      average (preV ++ vj :: postV) (preW ++ wj :: postW) <
        average (preV ++ vj :: postV) (preW ++ wj2 :: postW) ∧
      average (preV ++ vj :: postV) (preW ++ wj2 :: postW) < vj) ∧
    (vj < average (preV ++ vj :: postV) (preW ++ wj :: postW) →
      vj < average (preV ++ vj :: postV) (preW ++ wj2 :: postW) ∧
      average (preV ++ vj :: postV) (preW ++ wj2 :: postW) <
        average (preV ++ vj :: postV) (preW ++ wj :: postW)) := by
  have hW0 : 0 ≤ preW.sum + postW.sum := by
    have h1 : 0 ≤ preW.sum := List.sum_nonneg (fun w hw => le_of_lt (hpre w hw))
    have h2 : 0 ≤ postW.sum := List.sum_nonneg (fun w hw => le_of_lt (hpost w hw))
    linarith
  have hT : 0 < preW.sum + postW.sum + wj := by linarith
  have hT2 : 0 < preW.sum + postW.sum + wj2 := by linarith
  have hTT2 : preW.sum + postW.sum + wj < preW.sum + postW.sum + wj2 := by linarith
  have key1 := average_split preV postV preW postW vj wj hlen hT
  have key2 := average_split preV postV preW postW vj wj2 hlen hT2
  set B := dot preV preW + dot postV postW - vj * (preW.sum + postW.sum) with hB
  set T := preW.sum + postW.sum + wj with hTd
  set T2 := preW.sum + postW.sum + wj2 with hT2d
  have hBne : B ≠ 0 := by
    intro hc
    apply hne
    have := key1
    rw [hc, zero_div, sub_eq_zero] at this
    exact this
  refine ⟨?_, ?_, ?_⟩
  · rw [key1, key2, abs_div, abs_div, abs_of_pos hT, abs_of_pos hT2]
    exact div_lt_div_of_pos_left (abs_pos.mpr hBne) hT hTT2
  · intro hlt
    have hBneg : B < 0 := by
      have h1 : B / T < 0 := by
        rw [← key1]
        linarith
      exact ((div_neg_iff.mp h1).resolve_left
        (fun h => absurd hT (not_lt.mpr (le_of_lt h.2)))).1
    have hdivlt : B / T < B / T2 := by
      rw [div_lt_div_iff hT hT2]
      have := mul_lt_mul_of_neg_left hTT2 hBneg
      linarith
    have hdiv2neg : B / T2 < 0 := div_neg_of_neg_of_pos hBneg hT2
    constructor
    · have e1 : average (preV ++ vj :: postV) (preW ++ wj :: postW) = B / T + vj := by
        linarith [key1]
      have e2 : average (preV ++ vj :: postV) (preW ++ wj2 :: postW) = B / T2 + vj := by
        linarith [key2]
      rw [e1, e2]
      linarith
    · have e2 : average (preV ++ vj :: postV) (preW ++ wj2 :: postW) = B / T2 + vj := by
        linarith [key2]
      rw [e2]
      linarith
  · intro hgt
    have hBpos : 0 < B := by
      have h1 : 0 < B / T := by
        rw [← key1]
        linarith
      exact (div_pos_iff.mp h1).resolve_right (fun h => absurd hT (not_lt.mpr (le_of_lt h.2))) |>.1
    have hdivlt : B / T2 < B / T := div_lt_div_of_pos_left hBpos hT hTT2
    have hdiv2pos : 0 < B / T2 := div_pos hBpos hT2
    constructor
    · have e2 : average (preV ++ vj :: postV) (preW ++ wj2 :: postW) = B / T2 + vj := by
        linarith [key2]
      rw [e2]
      linarith
    · have e1 : average (preV ++ vj :: postV) (preW ++ wj :: postW) = B / T + vj := by
        linarith [key1]
      have e2 : average (preV ++ vj :: postV) (preW ++ wj2 :: postW) = B / T2 + vj := by
        linarith [key2]
      rw [e1, e2]
      linarith

/-- Witness for C9: doubling the weight of the estimate-100 study moves
the pooled estimate of {100 w 10, 50 w 10} strictly toward 100. -/
theorem weight_monotone_toward_app :
    |average [100, 50] [20, 10] - 100| < |average [100, 50] [10, 10] - 100| ∧
    average [100, 50] [10, 10] < average [100, 50] [20, 10] ∧
    average [100, 50] [20, 10] < 100 := by
  have h := weight_monotone_toward [] [50] [] [10] 100 10 20 rfl
    (by decide) (by decide) (by decide) (by decide)
    (by norm_num [average, dot])
  have h2 := h.2.1 (by norm_num [average, dot])
  refine ⟨by simpa using h.1, by simpa using h2.1, by simpa using h2.2⟩

/-- C10: with strictly positive weights, the pooled estimate lies
between the minimum and maximum of the individual study estimates;
consequently when every input estimate lies in [0, 100] the unclipped
pooled estimate already lies in [0, 100]. -/
theorem pooled_between_min_max (v : ℚ) (vs ws : List ℚ)
    (hlen : (v :: vs).length = ws.length) (hpos : ∀ w ∈ ws, 0 < w) :
    (vs.foldr min v ≤ average (v :: vs) ws ∧
      average (v :: vs) ws ≤ vs.foldr max v) ∧
    ((∀ x ∈ v :: vs, 0 ≤ x ∧ x ≤ 100) →
      0 ≤ average (v :: vs) ws ∧ average (v :: vs) ws ≤ 100) := by
  have hwne : ws ≠ [] := by
    intro hc
    rw [hc] at hlen
    simp at hlen
  have hS : 0 < ws.sum := List.sum_pos ws hpos hwne
  have hlo : ∀ lo : ℚ, (∀ x ∈ v :: vs, lo ≤ x) → lo ≤ average (v :: vs) ws := by
    intro lo hbound
    unfold average
    rw [le_div_iff hS]
    exact mul_sum_le_dot lo _ _ hlen hbound (fun w hw => le_of_lt (hpos w hw))
  have hhi : ∀ hi : ℚ, (∀ x ∈ v :: vs, x ≤ hi) → average (v :: vs) ws ≤ hi := by
    intro hi hbound
    unfold average
    rw [div_le_iff hS]
    exact dot_le_mul_sum hi _ _ hlen hbound (fun w hw => le_of_lt (hpos w hw))
  refine ⟨⟨hlo _ (foldr_min_le vs v), hhi _ (le_foldr_max vs v)⟩, ?_⟩
  intro hr
  exact ⟨hlo 0 (fun x hx => (hr x hx).1), hhi 100 (fun x hx => (hr x hx).2)⟩

/-- Witness for C10 at estimates 50, 80 with weights 10, 30. -/
theorem pooled_between_min_max_app :
    [(80 : ℚ)].foldr min 50 ≤ average [50, 80] [10, 30] ∧
    average [50, 80] [10, 30] ≤ [(80 : ℚ)].foldr max 50 ∧
    0 ≤ average [50, 80] [10, 30] ∧ average [50, 80] [10, 30] ≤ 100 := by
  have h := pooled_between_min_max 50 [80] [10, 30] (by decide) (by decide)
  have h2 := h.2 (by decide)
  exact ⟨h.1.1, h.1.2, h2.1, h2.2⟩

end MetaAnalysis
